import Mathlib

/-!
Shallow embedding of landlab's mesh-adjacency kernels:
`src/landlab/graph/_links_at_node.pyx` (row compaction, per-link polar angles,
stable insertion sort of each node's incident links) and
`src/landlab/graph/_neighbors.pyx` (neighbor-through-connector resolver).

Arrays are modelled as `List Int` (ids, with `-1` the "absent" sentinel) and
`List ℝ` (coordinates); in-place writes become `List.set`.  Loop counters are
`Nat`; the C loops `for k in range(n)` are embedded as structural recursion on
the iteration count, so that iteration `k` of the recursion performs exactly
the body of the `k`-th loop iteration on the current array state.
-/

namespace Landlab

open scoped List

/-- First loop of `_compact_links` (lines 129-136 of `_links_at_node.pyx`):
for `k in range(size)`, read `links[k]` and `link_dirs[k]` from the current
arrays and, when the link is not `-1`, write the pair to position `count` and
bump `count`.  `compactPass1 links dirs k` is the state after the first `k`
iterations, starting from the caller's arrays and `count = 0`. -/
def compactPass1 (links dirs : List Int) : Nat → List Int × List Int × Nat
  | 0 => (links, dirs, 0)
  | k + 1 =>
    match compactPass1 links dirs k with
    | (ls, ds, count) =>
      if ls.getD k 0 ≠ -1 then
        (ls.set count (ls.getD k 0), ds.set count (ds.getD k 0), count + 1)
      else
        (ls, ds, count)

/-- Second loop of `_compact_links` (lines 138-140): for `k in
range(count, size)`, set `links[k] = -1` and `link_dirs[k] = 0`.  The `j`-th
iteration writes position `count + j`; `compactPass2 ls ds count j` is the
state after the first `j` iterations. -/
def compactPass2 (ls ds : List Int) (count : Nat) : Nat → List Int × List Int
  | 0 => (ls, ds)
  | j + 1 =>
    match compactPass2 ls ds count j with
    | (ls', ds') => (ls'.set (count + j) (-1), ds'.set (count + j) 0)

/-- `_compact_links` (lines 105-142 of `_links_at_node.pyx`): left-pack the
non-missing `(link, dir)` pairs of one row, pad the tail with `(-1, 0)`, and
return the two updated arrays together with the count of valid links. -/
def _compact_links (links dirs : List Int) : List Int × List Int × Nat :=
  match compactPass1 links dirs links.length with
  | (ls, ds, count) =>
    match compactPass2 ls ds count (links.length - count) with
    | (ls', ds') => (ls', ds', count)

example :
    _compact_links [-1, 5, -1, 2] [0, 1, 0, -1] =
      ([5, 2, -1, -1], [1, -1, 0, 0], 2) := by decide

example : _compact_links [] [] = ([], [], 0) := by decide

example :
    _compact_links [-1, -1] [1, 1] = ([-1, -1], [0, 0], 0) := by decide

/-- The valid `(link, dir)` pairs of the first `k` slots of a row, in slot
order. -/
def validPrefix (links dirs : List Int) (k : Nat) : List (Int × Int) :=
  ((links.take k).zip (dirs.take k)).filter fun p => p.1 != -1

/-- The valid `(link, dir)` pairs of a whole row, in slot order. -/
def validPairs (links dirs : List Int) : List (Int × Int) :=
  (links.zip dirs).filter fun p => p.1 != -1

lemma validPrefix_length_le (links dirs : List Int) (k : Nat) :
    (validPrefix links dirs k).length ≤ k := by
  have h1 := List.length_filter_le (fun p : Int × Int => p.1 != -1)
    ((links.take k).zip (dirs.take k))
  have h2 : ((links.take k).zip (dirs.take k)).length ≤ k := by
    simp [List.length_zip]
  exact le_trans h1 h2

lemma getD_front_append_drop (P l : List Int) (c k : Nat) (hP : P.length = c)
    (hck : c ≤ k) : (P ++ l.drop c).getD k 0 = l.getD k 0 := by
  rw [List.getD_append_right _ _ _ _ (by omega)]
  simp only [List.getD_eq_getElem?_getD, List.getElem?_drop, hP]
  rw [Nat.add_sub_cancel' hck]

lemma set_at_append_cons (P : List Int) (c : Nat) (hP : P.length = c)
    (x v : Int) (t : List Int) : (P ++ x :: t).set c v = P ++ v :: t := by
  subst hP
  rw [List.set_append_right _ _ (le_refl _)]
  simp

lemma validPrefix_succ (links dirs : List Int) (h : dirs.length = links.length)
    (k : Nat) (hk : k < links.length) :
    validPrefix links dirs (k + 1) =
      if links.getD k 0 = -1 then validPrefix links dirs k
      else validPrefix links dirs k ++ [(links.getD k 0, dirs.getD k 0)] := by
  have hk' : k < dirs.length := by omega
  unfold validPrefix
  rw [List.take_succ, List.take_succ,
    List.getElem?_eq_getElem hk, List.getElem?_eq_getElem hk']
  simp only [Option.toList]
  rw [List.zip_append (by simp [List.length_take]; omega), List.filter_append]
  rw [List.getD_eq_getElem links 0 hk, List.getD_eq_getElem dirs 0 hk']
  by_cases hval : links[k] = -1
  · simp [hval]
  · simp [hval]

lemma compactPass1_spec (links dirs : List Int) (h : dirs.length = links.length) :
    ∀ k, k ≤ links.length →
      compactPass1 links dirs k =
        ((validPrefix links dirs k).map Prod.fst
            ++ links.drop (validPrefix links dirs k).length,
         (validPrefix links dirs k).map Prod.snd
            ++ dirs.drop (validPrefix links dirs k).length,
         (validPrefix links dirs k).length) := by
  intro k
  induction k with
  | zero =>
    intro _
    simp [compactPass1, validPrefix]
  | succ k ih =>
    intro hk1
    have hk : k < links.length := by omega
    have hk' : k < dirs.length := by omega
    have hprev := ih (by omega)
    have hc := validPrefix_length_le links dirs k
    set V := validPrefix links dirs k with hV
    set c := V.length with hcdef
    have hmapl : (V.map Prod.fst).length = c := by simp
    have hmapd : (V.map Prod.snd).length = c := by simp
    have hcle : c < links.length := lt_of_le_of_lt hc hk
    have hread1 : ((V.map Prod.fst) ++ links.drop c).getD k 0 = links.getD k 0 :=
      getD_front_append_drop _ _ _ _ hmapl hc
    have hread2 : ((V.map Prod.snd) ++ dirs.drop c).getD k 0 = dirs.getD k 0 :=
      getD_front_append_drop _ _ _ _ hmapd hc
    rw [compactPass1, hprev]
    simp only [hread1, hread2]
    rw [validPrefix_succ links dirs h k hk]
    by_cases hval : links.getD k 0 = -1
    · rw [if_pos hval, if_neg (not_not_intro hval)]
    · rw [if_neg hval, if_pos hval]
      have hdrop1 : links.drop c = links[c] :: links.drop (c + 1) :=
        List.drop_eq_getElem_cons hcle
      have hdrop2 : dirs.drop c = dirs[c] :: dirs.drop (c + 1) :=
        List.drop_eq_getElem_cons (by omega)
      rw [hdrop1, hdrop2, set_at_append_cons _ _ hmapl, set_at_append_cons _ _ hmapd]
      simp [← hV, ← hcdef, List.append_assoc]

lemma compactPass2_spec (ls ds : List Int) (count : Nat)
    (hlen : ds.length = ls.length) :
    ∀ j, count + j ≤ ls.length →
      compactPass2 ls ds count j =
        (ls.take count ++ (List.replicate j (-1) ++ ls.drop (count + j)),
         ds.take count ++ (List.replicate j 0 ++ ds.drop (count + j))) := by
  intro j
  induction j with
  | zero =>
    intro _
    simp [compactPass2]
  | succ j ih =>
    intro hj
    have hcj : count + j < ls.length := by omega
    have hcj' : count + j < ds.length := by omega
    have hlen1 : ((ls.take count) ++ List.replicate j (-1 : Int)).length = count + j := by
      simp [List.length_take]
      omega
    have hlen2 : ((ds.take count) ++ List.replicate j (0 : Int)).length = count + j := by
      simp [List.length_take]
      omega
    rw [compactPass2, ih (by omega)]
    dsimp only
    have hdrop1 : ls.drop (count + j) = ls[count + j] :: ls.drop (count + j + 1) :=
      List.drop_eq_getElem_cons hcj
    have hdrop2 : ds.drop (count + j) = ds[count + j] :: ds.drop (count + j + 1) :=
      List.drop_eq_getElem_cons hcj'
    rw [hdrop1, hdrop2, ← List.append_assoc, ← List.append_assoc,
      set_at_append_cons _ _ hlen1, set_at_append_cons _ _ hlen2]
    simp [List.append_assoc, List.replicate_succ', Nat.add_assoc]

/-- Functional contract of `_compact_links`: the result row is the valid
pairs left-packed in original order, padded with `(-1, 0)`, and the returned
count is the number of valid pairs. -/
lemma compact_links_eq (links dirs : List Int) (h : dirs.length = links.length) :
    _compact_links links dirs =
      ((validPairs links dirs).map Prod.fst
          ++ List.replicate (links.length - (validPairs links dirs).length) (-1),
       (validPairs links dirs).map Prod.snd
          ++ List.replicate (links.length - (validPairs links dirs).length) 0,
       (validPairs links dirs).length) := by
  have hVP : validPrefix links dirs links.length = validPairs links dirs := by
    unfold validPrefix validPairs
    rw [List.take_length, List.take_of_length_le (by omega)]
  have hcle : (validPairs links dirs).length ≤ links.length := by
    have h1 := validPrefix_length_le links dirs links.length
    rw [hVP] at h1
    exact h1
  unfold _compact_links
  rw [compactPass1_spec links dirs h links.length (le_refl _), hVP]
  dsimp only
  set V := validPairs links dirs with hV
  set c := V.length with hc
  have hmapl : (V.map Prod.fst).length = c := by simp
  have hmapd : (V.map Prod.snd).length = c := by simp
  have hlen1 : ((V.map Prod.fst) ++ links.drop c).length = links.length := by
    simp
    omega
  have hlen2 : ((V.map Prod.snd) ++ dirs.drop c).length = links.length := by
    simp
    omega
  rw [compactPass2_spec _ _ c (by rw [hlen1, hlen2]) (links.length - c)
    (by rw [hlen1]; omega)]
  have htake1 : ((V.map Prod.fst) ++ links.drop c).take c = V.map Prod.fst :=
    List.take_left' hmapl
  have htake2 : ((V.map Prod.snd) ++ dirs.drop c).take c = V.map Prod.snd :=
    List.take_left' hmapd
  have hsum : c + (links.length - c) = links.length := by omega
  rw [hsum]
  have hdropnil1 : ((V.map Prod.fst) ++ links.drop c).drop links.length = [] :=
    List.drop_of_length_le (by rw [hlen1])
  have hdropnil2 : ((V.map Prod.snd) ++ dirs.drop c).drop links.length = [] :=
    List.drop_of_length_le (by rw [hlen2])
  rw [htake1, htake2, hdropnil1, hdropnil2]
  simp

section StableSort

variable {K : Type} [LinearOrder K] {V : Type}

/-- One outer iteration of `_insertion_sort` (lines 168-182 of
`_links_at_node.pyx`): insert the element `x = (keys[i], vals[i], dirs[i])`
into the sorted prefix, shifting entries right while `keys[j] > key` — so `x`
lands after every entry whose key is less than or equal to its own.  The key
is the angle; the value carries the `(val, dir)` payload moved in lockstep by
the source. -/
def insertSorted (x : K × V) : List (K × V) → List (K × V)
  | [] => [x]
  | y :: ys => if x.1 < y.1 then x :: y :: ys else y :: insertSorted x ys

/-- `_insertion_sort` (lines 147-182 of `_links_at_node.pyx`): for `i` in
`range(1, size)`, insert element `i` into the sorted prefix `[0:i]`.
Embedded as a left fold of `insertSorted` over the row. -/
def _insertion_sort (l : List (K × V)) : List (K × V) :=
  l.foldl (fun acc x => insertSorted x acc) []

lemma mem_insertSorted {z x : K × V} {l : List (K × V)} :
    z ∈ insertSorted x l ↔ z = x ∨ z ∈ l := by
  induction l with
  | nil => simp [insertSorted]
  | cons y ys ih =>
    by_cases hxy : x.1 < y.1
    · simp [insertSorted, if_pos hxy]
    · simp [insertSorted, if_neg hxy, ih]
      tauto

lemma sorted_insertSorted {x : K × V} {l : List (K × V)}
    (hs : List.Sorted (fun a b => a.1 ≤ b.1) l) :
    List.Sorted (fun a b => a.1 ≤ b.1) (insertSorted x l) := by
  induction l with
  | nil => simp [insertSorted]
  | cons y ys ih =>
    rw [List.sorted_cons] at hs
    by_cases hxy : x.1 < y.1
    · rw [insertSorted, if_pos hxy, List.sorted_cons]
      refine ⟨?_, List.sorted_cons.mpr hs⟩
      intro b hb
      rcases List.mem_cons.mp hb with hb | hb
      · exact hb ▸ le_of_lt hxy
      · exact le_trans (le_of_lt hxy) (hs.1 b hb)
    · rw [insertSorted, if_neg hxy, List.sorted_cons]
      refine ⟨?_, ih hs.2⟩
      intro b hb
      rcases mem_insertSorted.mp hb with hb | hb
      · exact hb ▸ le_of_not_lt hxy
      · exact hs.1 b hb

lemma perm_insertSorted (x : K × V) (l : List (K × V)) :
    insertSorted x l ~ x :: l := by
  induction l with
  | nil => rfl
  | cons y ys ih =>
    by_cases hxy : x.1 < y.1
    · rw [insertSorted, if_pos hxy]
    · rw [insertSorted, if_neg hxy]
      calc y :: insertSorted x ys ~ y :: x :: ys := (ih).cons y
        _ ~ x :: y :: ys := List.Perm.swap x y ys

lemma insertSorted_of_forall_le {x : K × V} {l : List (K × V)}
    (h : ∀ y ∈ l, y.1 ≤ x.1) : insertSorted x l = l ++ [x] := by
  induction l with
  | nil => rfl
  | cons y ys ih =>
    have hy : y.1 ≤ x.1 := h y (List.mem_cons_self y ys)
    rw [insertSorted, if_neg (not_lt.mpr hy), ih fun z hz => h z (List.mem_cons_of_mem y hz)]
    simp

lemma sorted_insertion_sort_from (l acc : List (K × V))
    (hacc : List.Sorted (fun a b => a.1 ≤ b.1) acc) :
    List.Sorted (fun a b => a.1 ≤ b.1)
      (l.foldl (fun acc x => insertSorted x acc) acc) := by
  induction l generalizing acc with
  | nil => exact hacc
  | cons x xs ih => exact ih _ (sorted_insertSorted hacc)

/-- The sort returns a row sorted by key (non-decreasing angles). -/
lemma sorted_insertion_sort (l : List (K × V)) :
    List.Sorted (fun a b => a.1 ≤ b.1) (_insertion_sort l) :=
  sorted_insertion_sort_from l [] (List.sorted_nil)

lemma perm_insertion_sort_from (l acc : List (K × V)) :
    l.foldl (fun acc x => insertSorted x acc) acc ~ acc ++ l := by
  induction l generalizing acc with
  | nil => simp
  | cons x xs ih =>
    calc List.foldl (fun acc x => insertSorted x acc) (insertSorted x acc) xs
        ~ insertSorted x acc ++ xs := ih _
      _ ~ (x :: acc) ++ xs := (perm_insertSorted x acc).append_right xs
      _ ~ acc ++ x :: xs := (List.perm_middle).symm

/-- The sort permutes the row: no `(key, payload)` entry is dropped or
duplicated. -/
lemma perm_insertion_sort (l : List (K × V)) : _insertion_sort l ~ l :=
  perm_insertion_sort_from l []

lemma filter_insertSorted_of_ne [DecidableEq K] {x : K × V} {a : K}
    (hx : ¬x.1 = a) (l : List (K × V)) :
    (insertSorted x l).filter (fun t => t.1 = a) =
      l.filter fun t => t.1 = a := by
  induction l with
  | nil => simp [insertSorted, hx]
  | cons y ys ih =>
    by_cases hxy : x.1 < y.1
    · rw [insertSorted, if_pos hxy]
      simp [hx]
    · rw [insertSorted, if_neg hxy, List.filter_cons, List.filter_cons, ih]

lemma filter_insertSorted_of_eq [DecidableEq K] {x : K × V} {a : K}
    (hx : x.1 = a) {l : List (K × V)}
    (hs : List.Sorted (fun a b => a.1 ≤ b.1) l) :
    (insertSorted x l).filter (fun t => t.1 = a) =
      (l.filter fun t => t.1 = a) ++ [x] := by
  induction l with
  | nil => simp [insertSorted, hx]
  | cons y ys ih =>
    rw [List.sorted_cons] at hs
    by_cases hxy : x.1 < y.1
    · rw [insertSorted, if_pos hxy]
      have hnil : (y :: ys).filter (fun t => t.1 = a) = [] := by
        rw [List.filter_eq_nil_iff]
        intro t ht
        have hta : a < t.1 := by
          rcases List.mem_cons.mp ht with h' | h'
          · exact h' ▸ (hx ▸ hxy)
          · exact lt_of_lt_of_le (hx ▸ hxy) (hs.1 t h')
        simp [ne_of_gt hta]
      rw [hnil, List.filter_cons]
      simp [hx, hnil]
    · rw [insertSorted, if_neg hxy, List.filter_cons, ih hs.2, List.filter_cons]
      by_cases hy : y.1 = a
      · simp [hy]
      · simp [hy]

lemma filter_insertion_sort_from [DecidableEq K] (a : K)
    (l acc : List (K × V)) (hacc : List.Sorted (fun a b => a.1 ≤ b.1) acc) :
    (l.foldl (fun acc x => insertSorted x acc) acc).filter (fun t => t.1 = a) =
      (acc.filter fun t => t.1 = a) ++ (l.filter fun t => t.1 = a) := by
  induction l generalizing acc with
  | nil => simp
  | cons x xs ih =>
    rw [List.foldl_cons, ih _ (sorted_insertSorted hacc), List.filter_cons]
    by_cases hx : x.1 = a
    · rw [filter_insertSorted_of_eq hx hacc]
      simp [hx]
    · rw [filter_insertSorted_of_ne hx]
      simp [hx]

/-- Stability: entries with equal keys keep their relative order through the
sort. -/
lemma filter_insertion_sort [DecidableEq K] (a : K) (l : List (K × V)) :
    (_insertion_sort l).filter (fun t => t.1 = a) =
      l.filter fun t => t.1 = a := by
  rw [_insertion_sort, filter_insertion_sort_from a l [] List.sorted_nil]
  rfl

lemma insertion_sort_from_of_sorted (l acc : List (K × V))
    (h : List.Sorted (fun a b => a.1 ≤ b.1) (acc ++ l)) :
    l.foldl (fun acc x => insertSorted x acc) acc = acc ++ l := by
  induction l generalizing acc with
  | nil => simp
  | cons x xs ih =>
    have hle : ∀ y ∈ acc, y.1 ≤ x.1 := by
      intro y hy
      exact (List.pairwise_append.mp h).2.2 y hy x (List.mem_cons_self x xs)
    rw [List.foldl_cons, insertSorted_of_forall_le hle, ih]
    · simp
    · simpa using h

/-- Sorting an already-sorted row is the identity. -/
lemma insertion_sort_of_sorted {l : List (K × V)}
    (h : List.Sorted (fun a b => a.1 ≤ b.1) l) : _insertion_sort l = l := by
  rw [_insertion_sort, insertion_sort_from_of_sorted l [] (by simpa using h)]
  rfl

end StableSort

/-- Model of libc `atan2(y, x)`: the argument of the complex number
`x + i*y`, which lies in `(-π, π]` and agrees with the piecewise-arctan
definition of the C function (the doubles of the source are idealized as
reals). -/
noncomputable def atan2 (y x : ℝ) : ℝ := Complex.arg ⟨x, y⟩

/-- Angle step of `_sort_links_at_node_by_angle` (lines 66-88 of
`_links_at_node.pyx`): look up the link's `(tail, head)` endpoint pair, use
the head as the far endpoint when the tail is the current node and the tail
otherwise, and return `atan2(y1 - y0, x1 - x0)` shifted by `2π` when
negative.  Out-of-range ids fall back to `getD` defaults (the source runs
with bounds checks off, so such reads are outside its contract). -/
noncomputable def linkAngle (nodes_at_link : List (Int × Int))
    (x_of_node y_of_node : List ℝ) (node : Nat) (link : Int) : ℝ :=
  let tail := (nodes_at_link.getD link.toNat (-1, -1)).1
  let head := (nodes_at_link.getD link.toNat (-1, -1)).2
  let x0 := x_of_node.getD node 0
  let y0 := y_of_node.getD node 0
  let x1 := if tail = (node : Int) then x_of_node.getD head.toNat 0
            else x_of_node.getD tail.toNat 0
  let y1 := if tail = (node : Int) then y_of_node.getD head.toNat 0
            else y_of_node.getD tail.toNat 0
  let angle := atan2 (y1 - y0) (x1 - x0)
  if angle < 0 then angle + 2 * Real.pi else angle

/-- The `(angle, (link, dir))` triples the engine builds for one compacted
row (lines 66-88): one triple per valid slot `k < count`, the angle keyed to
the link in that slot, the `(link, dir)` payload moved in lockstep by the
sort. -/
noncomputable def rowTriples (nal : List (Int × Int)) (xs ys : List ℝ)
    (node : Nat) (ls ds : List Int) (count : Nat) : List (ℝ × Int × Int) :=
  (List.range count).map fun k =>
    (linkAngle nal xs ys node (ls.getD k 0), ls.getD k 0, ds.getD k 0)

/-- Per-node body of `_sort_links_at_node_by_angle`: compact the row, build
the `(angle, link, dir)` triples of the valid slots, and sort them stably by
angle; slots from `count` on keep the `(-1, 0)` padding written by
compaction.  The source runs compaction for all nodes first and then the
angle/sort loop, with per-node scratch state only, so rows are independent
and the embedding processes each row in a single pass. -/
noncomputable def normalizeRow (nal : List (Int × Int)) (xs ys : List ℝ)
    (node : Nat) (links dirs : List Int) : List Int × List Int :=
  match _compact_links links dirs with
  | (ls, ds, count) =>
    let sorted := _insertion_sort (rowTriples nal xs ys node ls ds count)
    (sorted.map (fun t => t.2.1) ++ ls.drop count,
     sorted.map (fun t => t.2.2) ++ ds.drop count)

/-- `_sort_links_at_node_by_angle` (lines 17-101 of `_links_at_node.pyx`),
after its scratch buffers are successfully acquired: normalize every node's
row of the `links_at_node` / `link_dirs_at_node` tables. -/
noncomputable def _sort_links_at_node_by_angle (nal : List (Int × Int))
    (lan dan : List (List Int)) (xs ys : List ℝ) :
    List (List Int) × List (List Int) :=
  ((List.range lan.length).map fun node =>
      (normalizeRow nal xs ys node (lan.getD node []) (dan.getD node [])).1,
   (List.range lan.length).map fun node =>
      (normalizeRow nal xs ys node (lan.getD node []) (dan.getD node [])).2)

lemma shift_mem_Ico {a : ℝ} (h : a ∈ Set.Ioc (-Real.pi) Real.pi) :
    (if a < 0 then a + 2 * Real.pi else a) ∈ Set.Ico 0 (2 * Real.pi) := by
  obtain ⟨h1, h2⟩ := h
  have hpi := Real.pi_pos
  by_cases ha : a < 0
  · rw [if_pos ha]
    constructor <;> linarith
  · rw [if_neg ha]
    constructor
    · exact le_of_not_lt ha
    · linarith

lemma atan2_mem_Ioc (y x : ℝ) : atan2 y x ∈ Set.Ioc (-Real.pi) Real.pi :=
  Complex.arg_mem_Ioc _

/-- Every stored angle lies in `[0, 2π)`. -/
lemma linkAngle_mem_Ico (nal : List (Int × Int)) (xs ys : List ℝ)
    (node : Nat) (link : Int) :
    linkAngle nal xs ys node link ∈ Set.Ico 0 (2 * Real.pi) :=
  shift_mem_Ico (atan2_mem_Ioc _ _)

lemma map_range_getD {α : Type} (l : List α) (d : α) (n : Nat)
    (h : n ≤ l.length) : ((List.range n).map fun k => l.getD k d) = l.take n := by
  induction n with
  | zero => simp
  | succ n ih =>
    have hn : n < l.length := by omega
    rw [List.range_succ, List.map_append, ih (by omega), List.take_succ]
    simp [List.getD_eq_getElem l d hn, List.getElem?_eq_getElem hn]

lemma getD_map_range {α : Type} (f : Nat → α) (d : α) (L n : Nat) (h : n < L) :
    ((List.range L).map f).getD n d = f n := by
  rw [List.getD_eq_getElem _ _ (by simp [h])]
  simp [h]

lemma zip_map_fst_snd {α β : Type} (V : List (α × β)) :
    (V.map Prod.fst).zip (V.map Prod.snd) = V := by
  rw [List.zip_map']
  simp

lemma zip_replicate_same {α β : Type} (n : Nat) (a : α) (b : β) :
    (List.replicate n a).zip (List.replicate n b) = List.replicate n (a, b) := by
  induction n with
  | zero => rfl
  | succ n ih => simp [List.replicate_succ, ih]

lemma validPairs_fst_ne (links dirs : List Int) :
    ∀ v ∈ (validPairs links dirs).map Prod.fst, v ≠ -1 := by
  intro v hv
  obtain ⟨p, hp, rfl⟩ := List.mem_map.mp hv
  have hmem := List.of_mem_filter hp
  simpa using hmem

lemma rowTriples_map_val (nal : List (Int × Int)) (xs ys : List ℝ)
    (node : Nat) (ls ds : List Int) (count : Nat) (h : count ≤ ls.length) :
    (rowTriples nal xs ys node ls ds count).map (fun t => t.2.1) =
      ls.take count := by
  rw [rowTriples, List.map_map, ← map_range_getD ls 0 count h]
  rfl

lemma rowTriples_map_dir (nal : List (Int × Int)) (xs ys : List ℝ)
    (node : Nat) (ls ds : List Int) (count : Nat) (h : count ≤ ds.length) :
    (rowTriples nal xs ys node ls ds count).map (fun t => t.2.2) =
      ds.take count := by
  rw [rowTriples, List.map_map, ← map_range_getD ds 0 count h]
  rfl

lemma rowTriples_length (nal : List (Int × Int)) (xs ys : List ℝ)
    (node : Nat) (ls ds : List Int) (count : Nat) :
    (rowTriples nal xs ys node ls ds count).length = count := by
  simp [rowTriples]

lemma mem_rowTriples {nal : List (Int × Int)} {xs ys : List ℝ}
    {node : Nat} {ls ds : List Int} {count : Nat} {t : ℝ × Int × Int}
    (ht : t ∈ rowTriples nal xs ys node ls ds count) :
    t.1 = linkAngle nal xs ys node t.2.1 ∧
      ∃ k, k < count ∧ t.2.1 = ls.getD k 0 := by
  obtain ⟨k, hk, rfl⟩ := List.mem_map.mp ht
  exact ⟨rfl, k, by simpa using hk, rfl⟩

/-- The link column of a row after compaction (valid links left-packed, then
`-1` padding). -/
def packedLinks (links dirs : List Int) : List Int :=
  (validPairs links dirs).map Prod.fst
    ++ List.replicate (links.length - (validPairs links dirs).length) (-1)

/-- The direction column of a row after compaction. -/
def packedDirs (links dirs : List Int) : List Int :=
  (validPairs links dirs).map Prod.snd
    ++ List.replicate (links.length - (validPairs links dirs).length) 0

/-- The `(angle, link, dir)` triples of a row's valid slots, as built by the
engine right after compaction. -/
noncomputable def packedTriples (nal : List (Int × Int)) (xs ys : List ℝ)
    (node : Nat) (links dirs : List Int) : List (ℝ × Int × Int) :=
  rowTriples nal xs ys node (packedLinks links dirs) (packedDirs links dirs)
    (validPairs links dirs).length

/-- A row's sorted triples. -/
noncomputable def rowSorted (nal : List (Int × Int)) (xs ys : List ℝ)
    (node : Nat) (links dirs : List Int) : List (ℝ × Int × Int) :=
  _insertion_sort (packedTriples nal xs ys node links dirs)

lemma validPairs_length_le (links dirs : List Int)
    (h : dirs.length = links.length) :
    (validPairs links dirs).length ≤ links.length := by
  have h1 := List.length_filter_le (fun p : Int × Int => p.1 != -1)
    (links.zip dirs)
  have h2 : (links.zip dirs).length = links.length := by
    rw [List.length_zip]
    omega
  unfold validPairs
  omega

lemma compact_links_packed (links dirs : List Int)
    (h : dirs.length = links.length) :
    _compact_links links dirs =
      (packedLinks links dirs, packedDirs links dirs,
        (validPairs links dirs).length) :=
  compact_links_eq links dirs h

lemma packedLinks_length (links dirs : List Int)
    (h : dirs.length = links.length) :
    (packedLinks links dirs).length = links.length := by
  have := validPairs_length_le links dirs h
  simp [packedLinks]
  omega

lemma packedDirs_length (links dirs : List Int)
    (h : dirs.length = links.length) :
    (packedDirs links dirs).length = links.length := by
  have := validPairs_length_le links dirs h
  simp [packedDirs]
  omega

lemma packedTriples_map_val (nal : List (Int × Int)) (xs ys : List ℝ)
    (node : Nat) (links dirs : List Int) (h : dirs.length = links.length) :
    (packedTriples nal xs ys node links dirs).map (fun t => t.2.1) =
      (validPairs links dirs).map Prod.fst := by
  rw [packedTriples, rowTriples_map_val _ _ _ _ _ _ _
    (by rw [packedLinks_length links dirs h]; exact validPairs_length_le links dirs h)]
  exact List.take_left' (by simp)

lemma packedTriples_map_dir (nal : List (Int × Int)) (xs ys : List ℝ)
    (node : Nat) (links dirs : List Int) (h : dirs.length = links.length) :
    (packedTriples nal xs ys node links dirs).map (fun t => t.2.2) =
      (validPairs links dirs).map Prod.snd := by
  rw [packedTriples, rowTriples_map_dir _ _ _ _ _ _ _
    (by rw [packedDirs_length links dirs h]; exact validPairs_length_le links dirs h)]
  exact List.take_left' (by simp)

lemma packedTriples_length (nal : List (Int × Int)) (xs ys : List ℝ)
    (node : Nat) (links dirs : List Int) :
    (packedTriples nal xs ys node links dirs).length =
      (validPairs links dirs).length :=
  rowTriples_length _ _ _ _ _ _ _

lemma mem_packedTriples_val_ne (nal : List (Int × Int)) (xs ys : List ℝ)
    (node : Nat) (links dirs : List Int) :
    ∀ t ∈ packedTriples nal xs ys node links dirs, t.2.1 ≠ -1 := by
  intro t ht
  obtain ⟨-, k, hk, hval⟩ := mem_rowTriples ht
  have hklt : k < ((validPairs links dirs).map Prod.fst).length := by simp [hk]
  have hget : (packedLinks links dirs).getD k 0 =
      ((validPairs links dirs).map Prod.fst).getD k 0 :=
    List.getD_append _ _ _ _ hklt
  rw [hval, hget, List.getD_eq_getElem _ _ hklt]
  exact validPairs_fst_ne links dirs _ (List.getElem_mem hklt)

lemma mem_packedTriples_key (nal : List (Int × Int)) (xs ys : List ℝ)
    (node : Nat) (links dirs : List Int) :
    ∀ t ∈ packedTriples nal xs ys node links dirs,
      t.1 = linkAngle nal xs ys node t.2.1 :=
  fun _ ht => (mem_rowTriples ht).1

lemma packedTriples_map_pair (nal : List (Int × Int)) (xs ys : List ℝ)
    (node : Nat) (links dirs : List Int) (h : dirs.length = links.length) :
    (packedTriples nal xs ys node links dirs).map (fun t => (t.2.1, t.2.2)) =
      validPairs links dirs := by
  have h1 := List.zip_map' (fun t : ℝ × Int × Int => t.2.1)
    (fun t : ℝ × Int × Int => t.2.2) (packedTriples nal xs ys node links dirs)
  rw [packedTriples_map_val nal xs ys node links dirs h,
    packedTriples_map_dir nal xs ys node links dirs h, zip_map_fst_snd] at h1
  exact h1.symm

lemma rowSorted_sorted (nal : List (Int × Int)) (xs ys : List ℝ)
    (node : Nat) (links dirs : List Int) :
    List.Sorted (fun a b => a.1 ≤ b.1) (rowSorted nal xs ys node links dirs) :=
  sorted_insertion_sort _

lemma rowSorted_perm (nal : List (Int × Int)) (xs ys : List ℝ)
    (node : Nat) (links dirs : List Int) :
    rowSorted nal xs ys node links dirs ~ packedTriples nal xs ys node links dirs :=
  perm_insertion_sort _

lemma rowSorted_length (nal : List (Int × Int)) (xs ys : List ℝ)
    (node : Nat) (links dirs : List Int) :
    (rowSorted nal xs ys node links dirs).length =
      (validPairs links dirs).length := by
  rw [(rowSorted_perm nal xs ys node links dirs).length_eq]
  exact packedTriples_length nal xs ys node links dirs

lemma mem_rowSorted_val_ne (nal : List (Int × Int)) (xs ys : List ℝ)
    (node : Nat) (links dirs : List Int) :
    ∀ t ∈ rowSorted nal xs ys node links dirs, t.2.1 ≠ -1 := by
  intro t ht
  exact mem_packedTriples_val_ne nal xs ys node links dirs t
    ((rowSorted_perm nal xs ys node links dirs).mem_iff.mp ht)

lemma mem_rowSorted_key (nal : List (Int × Int)) (xs ys : List ℝ)
    (node : Nat) (links dirs : List Int) :
    ∀ t ∈ rowSorted nal xs ys node links dirs,
      t.1 = linkAngle nal xs ys node t.2.1 := by
  intro t ht
  exact mem_packedTriples_key nal xs ys node links dirs t
    ((rowSorted_perm nal xs ys node links dirs).mem_iff.mp ht)

/-- Structural form of a normalized row: the sorted valid entries in front,
the `(-1, 0)` padding behind. -/
lemma normalizeRow_eq (nal : List (Int × Int)) (xs ys : List ℝ) (node : Nat)
    (links dirs : List Int) (h : dirs.length = links.length) :
    normalizeRow nal xs ys node links dirs =
      ((rowSorted nal xs ys node links dirs).map (fun t => t.2.1)
          ++ List.replicate (links.length - (validPairs links dirs).length) (-1),
       (rowSorted nal xs ys node links dirs).map (fun t => t.2.2)
          ++ List.replicate (links.length - (validPairs links dirs).length) 0) := by
  rw [normalizeRow, compact_links_packed links dirs h]
  dsimp only
  rw [rowSorted, packedTriples]
  rw [packedLinks, packedDirs, List.drop_left' (by simp), List.drop_left' (by simp)]

lemma normalizeRow_fst_length (nal : List (Int × Int)) (xs ys : List ℝ)
    (node : Nat) (links dirs : List Int) (h : dirs.length = links.length) :
    (normalizeRow nal xs ys node links dirs).1.length = links.length := by
  have hc := validPairs_length_le links dirs h
  rw [normalizeRow_eq nal xs ys node links dirs h]
  simp [rowSorted_length]
  omega

lemma normalizeRow_snd_length (nal : List (Int × Int)) (xs ys : List ℝ)
    (node : Nat) (links dirs : List Int) (h : dirs.length = links.length) :
    (normalizeRow nal xs ys node links dirs).2.length = links.length := by
  have hc := validPairs_length_le links dirs h
  rw [normalizeRow_eq nal xs ys node links dirs h]
  simp [rowSorted_length]
  omega

lemma validPairs_of_normalized (nal : List (Int × Int)) (xs ys : List ℝ)
    (node : Nat) (links dirs : List Int) (h : dirs.length = links.length) :
    validPairs (normalizeRow nal xs ys node links dirs).1
        (normalizeRow nal xs ys node links dirs).2 =
      (rowSorted nal xs ys node links dirs).map fun t => (t.2.1, t.2.2) := by
  rw [normalizeRow_eq nal xs ys node links dirs h]
  dsimp only
  unfold validPairs
  rw [List.zip_append (by simp), List.zip_map', zip_replicate_same,
    List.filter_append]
  have h1 : ((rowSorted nal xs ys node links dirs).map
      fun t => (t.2.1, t.2.2)).filter (fun p => p.1 != -1) =
      (rowSorted nal xs ys node links dirs).map fun t => (t.2.1, t.2.2) := by
    rw [List.filter_eq_self]
    intro q hq
    obtain ⟨t, ht, rfl⟩ := List.mem_map.mp hq
    simpa using mem_rowSorted_val_ne nal xs ys node links dirs t ht
  rw [h1]
  simp

lemma normalizeRow_idem (nal : List (Int × Int)) (xs ys : List ℝ)
    (node : Nat) (links dirs : List Int) (h : dirs.length = links.length) :
    normalizeRow nal xs ys node (normalizeRow nal xs ys node links dirs).1
        (normalizeRow nal xs ys node links dirs).2 =
      normalizeRow nal xs ys node links dirs := by
  have hc := validPairs_length_le links dirs h
  set S := rowSorted nal xs ys node links dirs with hS
  set c := (validPairs links dirs).length with hcdef
  set m := links.length - c with hm
  have hSlen : S.length = c := rowSorted_length nal xs ys node links dirs
  set row1 := S.map (fun t => t.2.1) ++ List.replicate m (-1 : Int) with hrow1
  set rowd := S.map (fun t => t.2.2) ++ List.replicate m (0 : Int) with hrowd
  have hout : normalizeRow nal xs ys node links dirs = (row1, rowd) :=
    normalizeRow_eq nal xs ys node links dirs h
  have hlen1 : row1.length = c + m := by simp [hrow1, hSlen]
  have hlend : rowd.length = row1.length := by simp [hrow1, hrowd]
  -- the valid pairs of the normalized row are exactly the sorted entries
  have hVP : validPairs row1 rowd = S.map fun t => (t.2.1, t.2.2) := by
    have := validPairs_of_normalized nal xs ys node links dirs h
    rw [hout] at this
    exact this
  have hVPlen : (validPairs row1 rowd).length = c := by rw [hVP]; simp [hSlen]
  -- compacting the normalized row is the identity
  have hpackedL : packedLinks row1 rowd = row1 := by
    rw [packedLinks, hVPlen, hVP, List.map_map, hlen1]
    have hmm : c + m - c = m := by omega
    rw [hmm, hrow1]
    rfl
  have hpackedD : packedDirs row1 rowd = rowd := by
    rw [packedDirs, hVPlen, hVP, List.map_map, hlen1]
    have hmm : c + m - c = m := by omega
    rw [hmm, hrowd]
    rfl
  have hcompact : _compact_links row1 rowd = (row1, rowd, c) := by
    rw [compact_links_packed row1 rowd hlend, hpackedL, hpackedD, hVPlen]
  -- the triples recomputed from the normalized row are the sorted triples
  have htriples : rowTriples nal xs ys node row1 rowd c = S := by
    apply List.ext_getElem
    · rw [rowTriples_length, hSlen]
    · intro k hk1 hk2
      have hkc : k < c := by rwa [rowTriples_length] at hk1
      have hkS : k < S.length := by omega
      have hkmap : k < (S.map fun t => t.2.1).length := by simp [hSlen]; omega
      have hkmapd : k < (S.map fun t => t.2.2).length := by simp [hSlen]; omega
      have hget1 : row1.getD k 0 = S[k].2.1 := by
        rw [hrow1, List.getD_append _ _ _ _ hkmap, List.getD_eq_getElem _ _ hkmap]
        simp
      have hget2 : rowd.getD k 0 = S[k].2.2 := by
        rw [hrowd, List.getD_append _ _ _ _ hkmapd, List.getD_eq_getElem _ _ hkmapd]
        simp
      have hkey : S[k].1 = linkAngle nal xs ys node S[k].2.1 :=
        mem_rowSorted_key nal xs ys node links dirs _ (S.getElem_mem hkS)
      simp only [rowTriples, List.getElem_map, List.getElem_range]
      rw [hget1, hget2, ← hkey]
  rw [hout]
  dsimp only
  rw [normalizeRow, hcompact]
  dsimp only
  rw [htriples, insertion_sort_of_sorted (hS ▸ rowSorted_sorted nal xs ys node links dirs)]
  rw [hrow1, hrowd, List.drop_left' (by simp [hSlen]), List.drop_left' (by simp [hSlen])]

lemma engine_fst_length (nal : List (Int × Int)) (lan dan : List (List Int))
    (xs ys : List ℝ) :
    (_sort_links_at_node_by_angle nal lan dan xs ys).1.length = lan.length := by
  simp [_sort_links_at_node_by_angle]

lemma engine_snd_length (nal : List (Int × Int)) (lan dan : List (List Int))
    (xs ys : List ℝ) :
    (_sort_links_at_node_by_angle nal lan dan xs ys).2.length = lan.length := by
  simp [_sort_links_at_node_by_angle]

lemma engine_fst_getD (nal : List (Int × Int)) (lan dan : List (List Int))
    (xs ys : List ℝ) (node : Nat) (h : node < lan.length) :
    (_sort_links_at_node_by_angle nal lan dan xs ys).1.getD node [] =
      (normalizeRow nal xs ys node (lan.getD node []) (dan.getD node [])).1 := by
  rw [_sort_links_at_node_by_angle]
  exact getD_map_range _ _ _ _ h

lemma engine_snd_getD (nal : List (Int × Int)) (lan dan : List (List Int))
    (xs ys : List ℝ) (node : Nat) (h : node < lan.length) :
    (_sort_links_at_node_by_angle nal lan dan xs ys).2.getD node [] =
      (normalizeRow nal xs ys node (lan.getD node []) (dan.getD node [])).2 := by
  rw [_sort_links_at_node_by_angle]
  exact getD_map_range _ _ _ _ h

lemma map_range_getD_self {α : Type} (l : List α) (d : α) :
    ((List.range l.length).map fun k => l.getD k d) = l := by
  rw [map_range_getD l d l.length (le_refl _), List.take_length]

/-- Per-slot body of the inner `k` loop of `_neighbors_via_connector`
(lines 32-46 of `_neighbors.pyx`): the value written at `out[x, k]` — `-1`
when the slot's connector id `y` is negative, otherwise the endpoint of
connector `y` that the branch picks (`x1` when `x0 == x`, else `x0`). -/
def neighborValue (cae : List (List Int)) (eac : List (Int × Int))
    (x : Int) (k : Nat) : Int :=
  let y := (cae.getD x.toNat []).getD k 0
  if y < 0 then -1
  else
    let x0 := (eac.getD y.toNat (-1, -1)).1
    let x1 := (eac.getD y.toNat (-1, -1)).2
    if x0 = x then x1 else x0

/-- Inner `k` loop of `_neighbors_via_connector`: fill every slot of element
`x`'s output row.  The source iterates `k` over the fixed table width
`connectors_at_element.shape[1]`; rows of the rectangular 2-d array all have
that width, which the embedding reads off element `x`'s row. -/
def resolveRow (cae : List (List Int)) (eac : List (Int × Int)) (x : Int)
    (outRow : List Int) : List Int :=
  (List.range (cae.getD x.toNat []).length).foldl
    (fun r k => r.set k (neighborValue cae eac x k)) outRow

/-- `_neighbors_via_connector` (lines 14-48 of `_neighbors.pyx`): for every
requested element id in `where`, fill that element's row of `out`.  The
source distributes the outer loop with `prange`; iterations write disjoint
rows (ids are distinct or repeat the same deterministic writes), so the
embedding runs them in sequence. -/
def _neighbors_via_connector (cae : List (List Int)) (eac : List (Int × Int))
    (whereIds : List Int) (out : List (List Int)) : List (List Int) :=
  whereIds.foldl
    (fun o x => o.set x.toNat (resolveRow cae eac x (o.getD x.toNat []))) out

lemma foldl_set_length (f : Nat → Int) (L : List Nat) (r : List Int) :
    (L.foldl (fun r k => r.set k (f k)) r).length = r.length := by
  induction L generalizing r with
  | nil => rfl
  | cons k ks ih =>
    rw [List.foldl_cons, ih]
    simp

lemma resolveRow_length (cae : List (List Int)) (eac : List (Int × Int))
    (x : Int) (r : List Int) : (resolveRow cae eac x r).length = r.length :=
  foldl_set_length _ _ r

lemma foldl_set_range_getD (f : Nat → Int) (n : Nat) (r : List Int) (k : Nat)
    (hk : k < n) (hkr : k < r.length) :
    ((List.range n).foldl (fun r k => r.set k (f k)) r).getD k 0 = f k := by
  induction n with
  | zero => omega
  | succ n ih =>
    rw [List.range_succ, List.foldl_append, List.foldl_cons, List.foldl_nil]
    have hlen : ((List.range n).foldl (fun r k => r.set k (f k)) r).length =
        r.length := foldl_set_length f _ r
    by_cases hkn : k = n
    · subst hkn
      simp only [List.getD_eq_getElem?_getD]
      rw [List.getElem?_set_self (by omega)]
      rfl
    · have hk' : k < n := by omega
      simp only [List.getD_eq_getElem?_getD]
      rw [List.getElem?_set_ne (by omega)]
      have := ih hk'
      simpa [List.getD_eq_getElem?_getD] using this

lemma resolveRow_getD (cae : List (List Int)) (eac : List (Int × Int))
    (x : Int) (r : List Int) (k : Nat)
    (hk : k < (cae.getD x.toNat []).length) (hkr : k < r.length) :
    (resolveRow cae eac x r).getD k 0 = neighborValue cae eac x k :=
  foldl_set_range_getD _ _ r k hk hkr

lemma neighbors_length (cae : List (List Int)) (eac : List (Int × Int))
    (whereIds : List Int) (out : List (List Int)) :
    (_neighbors_via_connector cae eac whereIds out).length = out.length := by
  rw [_neighbors_via_connector]
  induction whereIds generalizing out with
  | nil => rfl
  | cons w ws ih =>
    rw [List.foldl_cons, ih]
    simp

lemma neighbors_untouched (cae : List (List Int)) (eac : List (Int × Int))
    (whereIds : List Int) (out : List (List Int)) (i : Nat)
    (hni : ∀ w ∈ whereIds, w.toNat ≠ i) :
    (_neighbors_via_connector cae eac whereIds out).getD i [] =
      out.getD i [] := by
  rw [_neighbors_via_connector]
  induction whereIds generalizing out with
  | nil => rfl
  | cons w ws ih =>
    rw [List.foldl_cons]
    rw [ih _ (fun w' hw' => hni w' (List.mem_cons_of_mem w hw'))]
    simp only [List.getD_eq_getElem?_getD]
    rw [List.getElem?_set_ne (hni w (List.mem_cons_self w ws))]

lemma neighbors_row_of_mem (cae : List (List Int)) (eac : List (Int × Int))
    (whereIds : List Int) (out : List (List Int)) (x : Int) (k : Nat)
    (hx : x ∈ whereIds) (hpos : ∀ w ∈ whereIds, 0 ≤ w)
    (hout : x.toNat < out.length)
    (hwidth : ∀ w ∈ whereIds,
      (cae.getD w.toNat []).length ≤ (out.getD w.toNat []).length)
    (hk : k < (cae.getD x.toNat []).length) :
    ((_neighbors_via_connector cae eac whereIds out).getD x.toNat []).getD k 0 =
      neighborValue cae eac x k := by
  induction whereIds generalizing out with
  | nil => cases hx
  | cons w ws ih =>
    rw [_neighbors_via_connector, List.foldl_cons]
    set out' := out.set w.toNat (resolveRow cae eac w (out.getD w.toNat []))
      with hout'
    have hlen' : out'.length = out.length := by simp [hout']
    have hrowlen : ∀ i, (out'.getD i []).length = (out.getD i []).length := by
      intro i
      by_cases hiw : i = w.toNat
      · subst hiw
        by_cases hwlt : w.toNat < out.length
        · simp only [hout', List.getD_eq_getElem?_getD]
          rw [List.getElem?_set_self hwlt]
          simp [resolveRow_length]
        · have hnone : out[w.toNat]? = none := by
            rw [List.getElem?_eq_none_iff]
            omega
          simp [hout', List.getD_eq_getElem?_getD, List.getElem?_set_self', hnone]
      · simp only [hout', List.getD_eq_getElem?_getD]
        rw [List.getElem?_set_ne (fun hcon => hiw hcon.symm)]
    by_cases hxw : x ∈ ws
    · have := ih out' hxw (fun w' hw' => hpos w' (List.mem_cons_of_mem w hw'))
        (by omega)
        (fun w' hw' => by
          rw [hrowlen]
          exact hwidth w' (List.mem_cons_of_mem w hw'))
      rw [_neighbors_via_connector] at this
      exact this
    · have hxw' : x = w := by
        rcases List.mem_cons.mp hx with h' | h'
        · exact h'
        · exact absurd h' hxw
      subst hxw'
      have hni : ∀ w' ∈ ws, w'.toNat ≠ x.toNat := by
        intro w' hw' hcon
        have h1 : 0 ≤ w' := hpos w' (List.mem_cons_of_mem x hw')
        have h2 : 0 ≤ x := hpos x (List.mem_cons_self x ws)
        have : w' = x := by omega
        exact hxw (this ▸ hw')
      have huntouched := neighbors_untouched cae eac ws out' x.toNat hni
      rw [_neighbors_via_connector] at huntouched
      rw [huntouched]
      have hself : out'.getD x.toNat [] =
          resolveRow cae eac x (out.getD x.toNat []) := by
        simp only [hout', List.getD_eq_getElem?_getD]
        rw [List.getElem?_set_self hout]
        rfl
      rw [hself]
      exact resolveRow_getD cae eac x _ k hk
        (lt_of_lt_of_le hk (hwidth x (List.mem_cons_self x ws)))

/-- Outcome of one call of the `_sort_links_at_node_by_angle` entry point
(lines 49-100 of `_links_at_node.pyx`): whether `MemoryError` was raised,
which scratch buffers had been freed when the call exited, and the final
contents of the two tables. -/
structure SortCallOutcome where
  memoryErrorRaised : Bool
  anglesFreed : Bool
  nLinksFreed : Bool
  links_at_node : List (List Int)
  link_dirs_at_node : List (List Int)

/-- Entry point of `_sort_links_at_node_by_angle` with the two `malloc`
results made explicit (`anglesOk` / `nLinksOk` mean the corresponding
pointer is not NULL).  Lines 52-57: if either allocation failed, free
whichever buffer was acquired and raise `MemoryError` — before any read or
write of the tables (their first access is the compaction loop at line 62),
so they pass through unchanged.  Otherwise run the normalization; the
`try/finally` at lines 59 and 96-100 frees both buffers on exit. -/
noncomputable def sortLinksEntry (anglesOk nLinksOk : Bool)
    (nal : List (Int × Int)) (lan dan : List (List Int)) (xs ys : List ℝ) :
    SortCallOutcome :=
  if anglesOk = false ∨ nLinksOk = false then
    { memoryErrorRaised := true
      anglesFreed := anglesOk
      nLinksFreed := nLinksOk
      links_at_node := lan
      link_dirs_at_node := dan }
  else
    { memoryErrorRaised := false
      anglesFreed := true
      nLinksFreed := true
      links_at_node := (_sort_links_at_node_by_angle nal lan dan xs ys).1
      link_dirs_at_node := (_sort_links_at_node_by_angle nal lan dan xs ys).2 }

/-- The four arrays of one `_neighbors_via_connector` call: the three
`const` inputs and the output buffer. -/
structure ResolverCall where
  connectors_at_element : List (List Int)
  elements_at_connector : List (Int × Int)
  whereIds : List Int
  out : List (List Int)

/-- Effect of `_neighbors_via_connector` on the arrays of a call: the
kernel's only writes are the `out[x, k] = ...` assignments (lines 35 and 46
of `_neighbors.pyx`), so the three `const` inputs come back unchanged and
only `out` is replaced by the filled table. -/
def runNeighborsCall (s : ResolverCall) : ResolverCall :=
  { connectors_at_element := s.connectors_at_element
    elements_at_connector := s.elements_at_connector
    whereIds := s.whereIds
    out := _neighbors_via_connector s.connectors_at_element
      s.elements_at_connector s.whereIds s.out }

/-- Modelled from the spec: the resolver's public entry point is not under
`src/` (only the kernel `_neighbors_via_connector` is); per §4.2 it
produces "a freshly allocated table shaped like the requested subset;
inputs are never mutated".  It allocates a fresh output table with one row
per requested element id (at the incidence table's width) and hands it to
the kernel. -/
def resolverEntry (cae : List (List Int)) (eac : List (Int × Int))
    (whereIds : List Int) : List (List Int) :=
  _neighbors_via_connector cae eac whereIds
    (List.replicate whereIds.length (List.replicate (cae.headD []).length (-1)))

lemma validPairs_map_fst (links dirs : List Int)
    (h : dirs.length = links.length) :
    (validPairs links dirs).map Prod.fst = links.filter fun v => v != -1 := by
  have h1 : List.filter (fun v => v != -1) (List.map Prod.fst (links.zip dirs)) =
      List.map Prod.fst
        (List.filter ((fun v => (v != -1 : Bool)) ∘ Prod.fst) (links.zip dirs)) :=
    List.filter_map _ _
  rw [List.map_fst_zip links dirs (by omega)] at h1
  rw [validPairs]
  exact h1.symm

/-- C1: for every row of the incidence/orientation table pair, compaction
copies every `(connector, orientation)` pair whose connector id is not `-1`
to the front of the row, preserving the original relative order of those
pairs, sets every remaining slot to `(-1, 0)`, and returns the count of
valid entries. -/
theorem claim_compaction_left_pack (links dirs : List Int)
    (h : dirs.length = links.length) :
    _compact_links links dirs =
      (((links.zip dirs).filter fun p => p.1 != -1).map Prod.fst
          ++ List.replicate
            (links.length - ((links.zip dirs).filter fun p => p.1 != -1).length)
            (-1),
       ((links.zip dirs).filter fun p => p.1 != -1).map Prod.snd
          ++ List.replicate
            (links.length - ((links.zip dirs).filter fun p => p.1 != -1).length)
            0,
       ((links.zip dirs).filter fun p => p.1 != -1).length) :=
  compact_links_eq links dirs h

/-- C1 witness: the spec's width-4 row `[-1, 5, -1, 2]` compacts to
`[5, 2, -1, -1]` (orientations carried along), with count 2. -/
theorem claim_compaction_left_pack_witness :
    ([0, 1, 0, -1] : List Int).length = ([-1, 5, -1, 2] : List Int).length ∧
    _compact_links [-1, 5, -1, 2] [0, 1, 0, -1] =
      (([5, 2, -1, -1] : List Int), ([1, -1, 0, 0] : List Int), 2) := by
  refine ⟨by decide, ?_⟩
  rw [claim_compaction_left_pack [-1, 5, -1, 2] [0, 1, 0, -1] (by decide)]
  decide

/-- C9: if acquisition of either scratch buffer fails, the call raises
`MemoryError` (it neither continues into the sort nor returns silently),
and every scratch buffer that was successfully acquired is freed on that
exit path. -/
theorem claim_alloc_failure_raises (anglesOk nLinksOk : Bool)
    (nal : List (Int × Int)) (lan dan : List (List Int)) (xs ys : List ℝ)
    (hfail : anglesOk = false ∨ nLinksOk = false) :
    (sortLinksEntry anglesOk nLinksOk nal lan dan xs ys).memoryErrorRaised
        = true ∧
    (anglesOk = true →
      (sortLinksEntry anglesOk nLinksOk nal lan dan xs ys).anglesFreed = true) ∧
    (nLinksOk = true →
      (sortLinksEntry anglesOk nLinksOk nal lan dan xs ys).nLinksFreed = true) := by
  rw [sortLinksEntry, if_pos hfail]
  exact ⟨rfl, fun h => h, fun h => h⟩

/-- C9 witness: first buffer acquired, second failed — the error is raised
and the first buffer is freed. -/
theorem claim_alloc_failure_raises_witness :
    ((true : Bool) = false ∨ (false : Bool) = false) ∧
    ((sortLinksEntry true false [(0, 1)] [[0]] [[1]] [0, 1] [0, 0]).memoryErrorRaised
        = true ∧
     ((true : Bool) = true →
      (sortLinksEntry true false [(0, 1)] [[0]] [[1]] [0, 1] [0, 0]).anglesFreed = true) ∧
     ((false : Bool) = true →
      (sortLinksEntry true false [(0, 1)] [[0]] [[1]] [0, 1] [0, 0]).nLinksFreed = true)) :=
  ⟨Or.inr rfl,
    claim_alloc_failure_raises true false [(0, 1)] [[0]] [[1]] [0, 1] [0, 0]
      (Or.inr rfl)⟩

/-- C10: when scratch-buffer allocation fails, `MemoryError` is raised
before any read or write of the incidence or orientation tables, so on that
error path both tables are exactly as the caller passed them in. -/
theorem claim_alloc_failure_atomic (anglesOk nLinksOk : Bool)
    (nal : List (Int × Int)) (lan dan : List (List Int)) (xs ys : List ℝ)
    (hfail : anglesOk = false ∨ nLinksOk = false) :
    (sortLinksEntry anglesOk nLinksOk nal lan dan xs ys).links_at_node = lan ∧
    (sortLinksEntry anglesOk nLinksOk nal lan dan xs ys).link_dirs_at_node
        = dan := by
  rw [sortLinksEntry, if_pos hfail]
  exact ⟨rfl, rfl⟩

/-- C10 witness: with the first buffer failing, the tables pass through
untouched. -/
theorem claim_alloc_failure_atomic_witness :
    ((false : Bool) = false ∨ (true : Bool) = false) ∧
    ((sortLinksEntry false true [(0, 1)] [[0, -1]] [[1, 0]] [0, 1] [0, 0]).links_at_node
        = [[0, -1]] ∧
     (sortLinksEntry false true [(0, 1)] [[0, -1]] [[1, 0]] [0, 1] [0, 0]).link_dirs_at_node
        = [[1, 0]]) :=
  ⟨Or.inl rfl,
    claim_alloc_failure_atomic false true [(0, 1)] [[0, -1]] [[1, 0]] [0, 1] [0, 0]
      (Or.inl rfl)⟩

/-- C8: the resolver never mutates its inputs — the incidence table, the
connector-endpoint table and the requested id subset of a call come back
unchanged, only the output buffer is rewritten — and the (spec-modelled)
entry point returns a freshly allocated table with one row per requested
element. -/
theorem claim_resolver_frame :
    (∀ s : ResolverCall,
      (runNeighborsCall s).connectors_at_element = s.connectors_at_element ∧
      (runNeighborsCall s).elements_at_connector = s.elements_at_connector ∧
      (runNeighborsCall s).whereIds = s.whereIds) ∧
    (∀ (cae : List (List Int)) (eac : List (Int × Int)) (whereIds : List Int),
      (resolverEntry cae eac whereIds).length = whereIds.length) := by
  constructor
  · intro s
    exact ⟨rfl, rfl, rfl⟩
  · intro cae eac whereIds
    rw [resolverEntry, neighbors_length]
    simp

/-- C3: for every element `x` of the requested subset and slot `k`, the
resolver writes `-1` when `incidence[x,k] = -1`, and otherwise — under the
caller precondition that connector `incidence[x,k]` lists `x` among its two
endpoints (and is a real connector id, hence nonnegative, with at most one
endpoint equal to `x`) — it writes the endpoint of that connector that is
not `x`. -/
theorem claim_resolver_slot (cae : List (List Int)) (eac : List (Int × Int))
    (whereIds : List Int) (out : List (List Int)) (x : Int) (k : Nat)
    (hx : x ∈ whereIds) (hpos : ∀ w ∈ whereIds, 0 ≤ w)
    (hout : x.toNat < out.length)
    (hwidth : ∀ w ∈ whereIds,
      (cae.getD w.toNat []).length ≤ (out.getD w.toNat []).length)
    (hk : k < (cae.getD x.toNat []).length) :
    ((cae.getD x.toNat []).getD k 0 = -1 →
      ((_neighbors_via_connector cae eac whereIds out).getD x.toNat []).getD k 0
        = -1) ∧
    (0 ≤ (cae.getD x.toNat []).getD k 0 →
      ((eac.getD ((cae.getD x.toNat []).getD k 0).toNat (-1, -1)).1 = x ∨
       (eac.getD ((cae.getD x.toNat []).getD k 0).toNat (-1, -1)).2 = x) →
      ¬((eac.getD ((cae.getD x.toNat []).getD k 0).toNat (-1, -1)).1 = x ∧
        (eac.getD ((cae.getD x.toNat []).getD k 0).toNat (-1, -1)).2 = x) →
      (((_neighbors_via_connector cae eac whereIds out).getD x.toNat []).getD k 0
          ≠ x ∧
       (((_neighbors_via_connector cae eac whereIds out).getD x.toNat []).getD k 0
           = (eac.getD ((cae.getD x.toNat []).getD k 0).toNat (-1, -1)).1 ∨
        ((_neighbors_via_connector cae eac whereIds out).getD x.toNat []).getD k 0
           = (eac.getD ((cae.getD x.toNat []).getD k 0).toNat (-1, -1)).2))) := by
  have hval := neighbors_row_of_mem cae eac whereIds out x k hx hpos hout hwidth hk
  rw [hval]
  constructor
  · intro hm1
    simp only [neighborValue]
    rw [if_pos (by rw [hm1]; decide)]
  · intro hy0 hmem hnotboth
    simp only [neighborValue]
    rw [if_neg (not_lt.mpr hy0)]
    by_cases he1 : (eac.getD ((cae.getD x.toNat []).getD k 0).toNat (-1, -1)).1 = x
    · rw [if_pos he1]
      refine ⟨fun hcon => hnotboth ⟨he1, hcon⟩, Or.inr rfl⟩
    · rw [if_neg he1]
      exact ⟨he1, Or.inl rfl⟩

/-- C3 witness: one element `0` with incidence row `[0, -1]`, connector `0` =
`(0, 1)`; the resolved neighbor at slot 0 is an endpoint other than `0`. -/
theorem claim_resolver_slot_witness :
    ((0 : Int) ∈ ([0] : List Int)) ∧
    ((_neighbors_via_connector [[0, -1]] [(0, 1)] [0] [[-5, -5]]).getD
        (0 : Int).toNat []).getD 0 0 ≠ (0 : Int) := by
  have h := claim_resolver_slot [[0, -1]] [(0, 1)] [0] [[-5, -5]] 0 0
    (by decide) (by decide) (by decide) (by decide) (by decide)
  exact ⟨by decide, (h.2 (by decide) (by decide) (by decide)).1⟩

/-- C2: for every valid compacted slot `k < count` of a node's row, the
angle the engine assigns to that slot equals
`atan2(far.y - self.y, far.x - self.x)` — with `far` the endpoint of the
slot's connector that is not the current node — with `2π` added when the
`atan2` result is negative, so the stored angle lies in `[0, 2π)`.  The
hypothesis is the caller precondition that the current node is exactly one
of the connector's two endpoints. -/
theorem claim_angle_of_slot (nal : List (Int × Int)) (xs ys : List ℝ)
    (node : Nat) (ls ds : List Int) (count k : Nat) (hk : k < count)
    (hends :
      ((nal.getD (ls.getD k 0).toNat (-1, -1)).1 = (node : Int) ∧
        (nal.getD (ls.getD k 0).toNat (-1, -1)).2 ≠ (node : Int)) ∨
      ((nal.getD (ls.getD k 0).toNat (-1, -1)).1 ≠ (node : Int) ∧
        (nal.getD (ls.getD k 0).toNat (-1, -1)).2 = (node : Int))) :
    ∃ far : Int,
      (far = (nal.getD (ls.getD k 0).toNat (-1, -1)).1 ∨
        far = (nal.getD (ls.getD k 0).toNat (-1, -1)).2) ∧
      far ≠ (node : Int) ∧
      ((rowTriples nal xs ys node ls ds count).getD k (0, 0, 0)).1 =
        (if atan2 (ys.getD far.toNat 0 - ys.getD node 0)
              (xs.getD far.toNat 0 - xs.getD node 0) < 0 then
          atan2 (ys.getD far.toNat 0 - ys.getD node 0)
              (xs.getD far.toNat 0 - xs.getD node 0) + 2 * Real.pi
        else
          atan2 (ys.getD far.toNat 0 - ys.getD node 0)
              (xs.getD far.toNat 0 - xs.getD node 0)) ∧
      ((rowTriples nal xs ys node ls ds count).getD k (0, 0, 0)).1 ∈
        Set.Ico 0 (2 * Real.pi) := by
  have htr : ((rowTriples nal xs ys node ls ds count).getD k (0, 0, 0)).1 =
      linkAngle nal xs ys node (ls.getD k 0) := by
    rw [rowTriples, getD_map_range _ _ _ _ hk]
  rcases hends with ⟨h1, h2⟩ | ⟨h1, h2⟩
  · refine ⟨(nal.getD (ls.getD k 0).toNat (-1, -1)).2, Or.inr rfl, h2, ?_, ?_⟩
    · rw [htr]
      simp only [linkAngle]
      rw [if_pos h1, if_pos h1]
    · rw [htr]
      exact linkAngle_mem_Ico nal xs ys node (ls.getD k 0)
  · refine ⟨(nal.getD (ls.getD k 0).toNat (-1, -1)).1, Or.inl rfl, h1, ?_, ?_⟩
    · rw [htr]
      simp only [linkAngle]
      rw [if_neg h1, if_neg h1]
    · rw [htr]
      exact linkAngle_mem_Ico nal xs ys node (ls.getD k 0)

/-- C2 witness: node 0 at the origin, link 0 from node 0 to node 1 at
`(1, 0)`; the slot's stored angle satisfies the `atan2` formula with far
endpoint 1 and lies in `[0, 2π)`. -/
theorem claim_angle_of_slot_witness :
    0 < 1 ∧
    ((([(0, 1)] : List (Int × Int)).getD
        ((([0] : List Int).getD 0 0).toNat) (-1, -1)).1 = ((0 : Nat) : Int) ∧
      (([(0, 1)] : List (Int × Int)).getD
        ((([0] : List Int).getD 0 0).toNat) (-1, -1)).2 ≠ ((0 : Nat) : Int)) ∧
    ∃ far : Int,
      (far = (([(0, 1)] : List (Int × Int)).getD
          ((([0] : List Int).getD 0 0).toNat) (-1, -1)).1 ∨
        far = (([(0, 1)] : List (Int × Int)).getD
          ((([0] : List Int).getD 0 0).toNat) (-1, -1)).2) ∧
      far ≠ ((0 : Nat) : Int) ∧
      ((rowTriples [(0, 1)] [0, 1] [0, 0] 0 [0] [1] 1).getD 0 (0, 0, 0)).1 =
        (if atan2 (([0, 0] : List ℝ).getD far.toNat 0 - ([0, 0] : List ℝ).getD 0 0)
              (([0, 1] : List ℝ).getD far.toNat 0 - ([0, 1] : List ℝ).getD 0 0) < 0 then
          atan2 (([0, 0] : List ℝ).getD far.toNat 0 - ([0, 0] : List ℝ).getD 0 0)
              (([0, 1] : List ℝ).getD far.toNat 0 - ([0, 1] : List ℝ).getD 0 0)
            + 2 * Real.pi
        else
          atan2 (([0, 0] : List ℝ).getD far.toNat 0 - ([0, 0] : List ℝ).getD 0 0)
              (([0, 1] : List ℝ).getD far.toNat 0 - ([0, 1] : List ℝ).getD 0 0)) ∧
      ((rowTriples [(0, 1)] [0, 1] [0, 0] 0 [0] [1] 1).getD 0 (0, 0, 0)).1 ∈
        Set.Ico 0 (2 * Real.pi) :=
  ⟨by decide, ⟨by decide, by decide⟩,
    claim_angle_of_slot [(0, 1)] [0, 1] [0, 0] 0 [0] [1] 1 0 (by decide)
      (Or.inl ⟨by decide, by decide⟩)⟩

/-- C4: after the engine runs, for every node the angles of the valid
(non `-1`) slots of that node's row are non-decreasing with increasing slot
index, each angle lying in `[0, 2π)`. -/
theorem claim_sorted_angles (nal : List (Int × Int)) (lan dan : List (List Int))
    (xs ys : List ℝ)
    (hrow : ∀ i, (dan.getD i []).length = (lan.getD i []).length) (node : Nat) :
    List.Sorted (· ≤ ·)
      ((((_sort_links_at_node_by_angle nal lan dan xs ys).1.getD node []).filter
          fun v => v != -1).map (linkAngle nal xs ys node)) ∧
    ∀ a ∈ (((_sort_links_at_node_by_angle nal lan dan xs ys).1.getD node []).filter
          fun v => v != -1).map (linkAngle nal xs ys node),
      a ∈ Set.Ico 0 (2 * Real.pi) := by
  constructor
  · by_cases hn : node < lan.length
    · rw [engine_fst_getD nal lan dan xs ys node hn,
        normalizeRow_eq nal xs ys node _ _ (hrow node)]
      dsimp only
      rw [List.filter_append]
      have hfull : ((rowSorted nal xs ys node (lan.getD node [])
          (dan.getD node [])).map (fun t => t.2.1)).filter (fun v => v != -1) =
          (rowSorted nal xs ys node (lan.getD node []) (dan.getD node [])).map
            fun t => t.2.1 := by
        rw [List.filter_eq_self]
        intro v hv
        obtain ⟨t, ht, rfl⟩ := List.mem_map.mp hv
        simpa using mem_rowSorted_val_ne nal xs ys node _ _ t ht
      have hrep : (List.replicate ((lan.getD node []).length -
          (validPairs (lan.getD node []) (dan.getD node [])).length)
          (-1 : Int)).filter (fun v => v != -1) = [] := by simp
      rw [hfull, hrep, List.append_nil, List.map_map]
      have hcongr : (rowSorted nal xs ys node (lan.getD node [])
          (dan.getD node [])).map (linkAngle nal xs ys node ∘ fun t => t.2.1) =
          (rowSorted nal xs ys node (lan.getD node []) (dan.getD node [])).map
            fun t => t.1 := by
        apply List.map_congr_left
        intro t ht
        exact (mem_rowSorted_key nal xs ys node _ _ t ht).symm
      rw [hcongr]
      exact List.pairwise_map.mpr (rowSorted_sorted nal xs ys node _ _)
    · rw [List.getD_eq_default _ _ (by rw [engine_fst_length]; omega)]
      simp
  · intro a ha
    obtain ⟨v, hv, rfl⟩ := List.mem_map.mp ha
    exact linkAngle_mem_Ico nal xs ys node v

/-- C4 witness: a one-node, one-link mesh — the engine's output row has its
valid-slot angles sorted and inside `[0, 2π)`. -/
theorem claim_sorted_angles_witness :
    (∀ i, (([[1]] : List (List Int)).getD i []).length =
      (([[0]] : List (List Int)).getD i []).length) ∧
    (List.Sorted (· ≤ ·)
      ((((_sort_links_at_node_by_angle [(0, 1)] [[0]] [[1]] [0, 1] [0, 0]).1.getD
          0 []).filter fun v => v != -1).map (linkAngle [(0, 1)] [0, 1] [0, 0] 0)) ∧
     ∀ a ∈ (((_sort_links_at_node_by_angle [(0, 1)] [[0]] [[1]] [0, 1]
          [0, 0]).1.getD 0 []).filter fun v => v != -1).map
            (linkAngle [(0, 1)] [0, 1] [0, 0] 0),
       a ∈ Set.Ico 0 (2 * Real.pi)) :=
  ⟨fun i => by cases i <;> rfl,
    claim_sorted_angles [(0, 1)] [[0]] [[1]] [0, 1] [0, 0]
      (fun i => by cases i <;> rfl) 0⟩

/-- C5: whenever two valid slots of a row are assigned exactly equal
angles, the sort keeps those `(connector, orientation)` entries in the
relative order they had before sorting (right after compaction): for every
angle value, the subsequence of that angle's entries is unchanged. -/
theorem claim_stable_ties (nal : List (Int × Int)) (xs ys : List ℝ)
    (node : Nat) (ls ds : List Int) (count : Nat) (a : ℝ) :
    (_insertion_sort (rowTriples nal xs ys node ls ds count)).filter
        (fun t => t.1 = a) =
      (rowTriples nal xs ys node ls ds count).filter (fun t => t.1 = a) :=
  filter_insertion_sort a _

/-- C6: the multiset of valid `(connector, orientation)` pairs of a row is
unchanged by the combined compaction-and-sort normalization — entries move
as pairs, none dropped or duplicated — and the valid-slot count is
preserved. -/
theorem claim_pairs_preserved (nal : List (Int × Int)) (xs ys : List ℝ)
    (node : Nat) (links dirs : List Int) (h : dirs.length = links.length) :
    ((normalizeRow nal xs ys node links dirs).1.zip
        (normalizeRow nal xs ys node links dirs).2).filter (fun p => p.1 != -1) ~
      (links.zip dirs).filter (fun p => p.1 != -1) ∧
    ((normalizeRow nal xs ys node links dirs).1.filter fun v => v != -1).length
      = (links.filter fun v => v != -1).length := by
  constructor
  · show validPairs (normalizeRow nal xs ys node links dirs).1
        (normalizeRow nal xs ys node links dirs).2 ~ validPairs links dirs
    rw [validPairs_of_normalized nal xs ys node links dirs h]
    have hperm := List.Perm.map (fun t : ℝ × Int × Int => (t.2.1, t.2.2))
      (rowSorted_perm nal xs ys node links dirs)
    rw [packedTriples_map_pair nal xs ys node links dirs h] at hperm
    exact hperm
  · rw [normalizeRow_eq nal xs ys node links dirs h]
    dsimp only
    rw [List.filter_append]
    have hfull : ((rowSorted nal xs ys node links dirs).map
        (fun t => t.2.1)).filter (fun v => v != -1) =
        (rowSorted nal xs ys node links dirs).map fun t => t.2.1 := by
      rw [List.filter_eq_self]
      intro v hv
      obtain ⟨t, ht, rfl⟩ := List.mem_map.mp hv
      simpa using mem_rowSorted_val_ne nal xs ys node links dirs t ht
    have hrep : (List.replicate (links.length -
        (validPairs links dirs).length) (-1 : Int)).filter
        (fun v => v != -1) = [] := by simp
    rw [hfull, hrep, List.append_nil, List.length_map, rowSorted_length]
    rw [← validPairs_map_fst links dirs h, List.length_map]

/-- C6 witness: the row `[-1, 5, -1, 2]` with orientations `[0, 1, 0, -1]`
keeps its valid pairs (as a permutation) and its valid count through
normalization. -/
theorem claim_pairs_preserved_witness :
    ([0, 1, 0, -1] : List Int).length = ([-1, 5, -1, 2] : List Int).length ∧
    (((normalizeRow [(0, 1)] [0, 1] [0, 0] 0 [-1, 5, -1, 2] [0, 1, 0, -1]).1.zip
        (normalizeRow [(0, 1)] [0, 1] [0, 0] 0 [-1, 5, -1, 2] [0, 1, 0, -1]).2).filter
          (fun p => p.1 != -1) ~
      (([-1, 5, -1, 2] : List Int).zip ([0, 1, 0, -1] : List Int)).filter
        (fun p => p.1 != -1) ∧
     ((normalizeRow [(0, 1)] [0, 1] [0, 0] 0 [-1, 5, -1, 2] [0, 1, 0, -1]).1.filter
        fun v => v != -1).length =
       (([-1, 5, -1, 2] : List Int).filter fun v => v != -1).length) :=
  ⟨by decide,
    claim_pairs_preserved [(0, 1)] [0, 1] [0, 0] 0 [-1, 5, -1, 2] [0, 1, 0, -1]
      (by decide)⟩

/-- C7: running the engine a second time on tables it has already
normalized changes nothing — sort (sort tables) = sort tables. -/
theorem claim_engine_idempotent (nal : List (Int × Int))
    (lan dan : List (List Int)) (xs ys : List ℝ)
    (hrow : ∀ i, (dan.getD i []).length = (lan.getD i []).length) :
    _sort_links_at_node_by_angle nal
        (_sort_links_at_node_by_angle nal lan dan xs ys).1
        (_sort_links_at_node_by_angle nal lan dan xs ys).2 xs ys =
      _sort_links_at_node_by_angle nal lan dan xs ys := by
  set E1 := (_sort_links_at_node_by_angle nal lan dan xs ys).1 with hE1
  set E2 := (_sort_links_at_node_by_angle nal lan dan xs ys).2 with hE2
  have hlen1 : E1.length = lan.length := engine_fst_length nal lan dan xs ys
  have hrownorm : ∀ node, node < lan.length →
      normalizeRow nal xs ys node (E1.getD node []) (E2.getD node []) =
        (E1.getD node [], E2.getD node []) := by
    intro node hn
    rw [hE1, engine_fst_getD nal lan dan xs ys node hn,
      hE2, engine_snd_getD nal lan dan xs ys node hn]
    exact normalizeRow_idem nal xs ys node _ _ (hrow node)
  have hmap1 : ∀ node ∈ List.range E1.length,
      (normalizeRow nal xs ys node (E1.getD node []) (E2.getD node [])).1 =
        E1.getD node [] := by
    intro node hn
    rw [hrownorm node (by rw [← hlen1]; exact List.mem_range.mp hn)]
  have hmap2 : ∀ node ∈ List.range E1.length,
      (normalizeRow nal xs ys node (E1.getD node []) (E2.getD node [])).2 =
        E2.getD node [] := by
    intro node hn
    rw [hrownorm node (by rw [← hlen1]; exact List.mem_range.mp hn)]
  have hlen21 : E2.length = E1.length := by
    rw [hlen1]
    exact engine_snd_length nal lan dan xs ys
  rw [_sort_links_at_node_by_angle, List.map_congr_left hmap1,
    List.map_congr_left hmap2, map_range_getD_self]
  have h2 : ((List.range E1.length).map fun k => E2.getD k []) = E2 := by
    rw [← hlen21, map_range_getD_self]
  rw [h2]

/-- C7 witness: a one-node, one-link mesh — re-running the engine on its
own output is a no-op. -/
theorem claim_engine_idempotent_witness :
    (∀ i, (([[1]] : List (List Int)).getD i []).length =
      (([[0]] : List (List Int)).getD i []).length) ∧
    _sort_links_at_node_by_angle [(0, 1)]
        (_sort_links_at_node_by_angle [(0, 1)] [[0]] [[1]] [0, 1] [0, 0]).1
        (_sort_links_at_node_by_angle [(0, 1)] [[0]] [[1]] [0, 1] [0, 0]).2
        [0, 1] [0, 0] =
      _sort_links_at_node_by_angle [(0, 1)] [[0]] [[1]] [0, 1] [0, 0] :=
  ⟨fun i => by cases i <;> rfl,
    claim_engine_idempotent [(0, 1)] [[0]] [[1]] [0, 1] [0, 0]
      (fun i => by cases i <;> rfl)⟩

end Landlab
